import Mathlib

/-!
# Verification of the two test-target programs

Shallow embedding of the two C++ test fixtures of this repository:

* `src/debugger/test_targets/multi_threaded2.cpp` — `main` creates ten
  pthreads all running `say_hi`, which loops forever printing
  `"Thread <tid> reporting in"` and sleeping; `main` then tries to join
  every handle.
* `src/test/targets/print_longdouble.cpp` — `main` stores `42.24l` into a
  `long double`, reinterprets its address as a byte pointer, prints the 16
  bytes with `printf("%#x ", b)` followed by a newline, reassigns the
  variable to `64.125l`, and prints the same 16 bytes again.

Output is modelled at the level of emitted lines (for the threaded
program) and emitted tokens per line (for the byte-dump program), with a
character-level tokenizer connecting rendered text back to tokens.
-/

namespace Bad

/-! ## Decimal and hexadecimal rendering

`operator<<(std::ostream&, int)` renders its argument in decimal;
`printf("%#x", b)` renders it in lower-case hexadecimal with a `0x`
prefix in the alternate form, except that the value `0` is rendered as
the bare digit `0`.  Both renderers are embedded as fuelled structural
recursions on `Nat`. -/

/-- Decimal digits of `n`, most significant first, driven by fuel
(`fuel = n + 1` always suffices since `n / 10 < n` for `n ≥ 10`). -/
def natDigits : Nat → Nat → List Char
  | 0, _ => []
  | fuel + 1, n =>
      if n < 10 then [Nat.digitChar n]
      else natDigits fuel (n / 10) ++ [Nat.digitChar (n % 10)]

/-- Decimal rendering of a natural number, as produced by
`operator<<(std::ostream&, int)` for non-negative values. -/
def natToString (n : Nat) : String := ⟨natDigits (n + 1) n⟩

/-- Hexadecimal digits of `n`, most significant first, lower case. -/
def hexDigits : Nat → Nat → List Char
  | 0, _ => []
  | fuel + 1, n =>
      if n < 16 then [Nat.digitChar n]
      else hexDigits fuel (n / 16) ++ [Nat.digitChar (n % 16)]

/-- The text `printf("%#x", n)` produces: `"0"` for zero (the `#`
alternate form adds `0x` only to nonzero values), `0x` followed by the
lower-case hex digits otherwise. -/
def fmtAltHex (n : Nat) : String :=
  if n = 0 then "0" else "0x" ++ ⟨hexDigits (n + 1) n⟩

/-! ## A character-level tokenizer

`wordsAux` splits a character list into maximal runs of non-space
characters; it is the yardstick for "space-separated tokens" in the
output-shape claims. -/

/-- Split into space-separated words; `acc` holds the reversed current
word. -/
def wordsAux : List Char → List Char → List (List Char)
  | [], acc => if acc.isEmpty then [] else [acc.reverse]
  | c :: cs, acc =>
      if c = ' ' then
        if acc.isEmpty then wordsAux cs [] else acc.reverse :: wordsAux cs []
      else wordsAux cs (c :: acc)

/-- The space-separated tokens of a string. -/
def lineTokens (s : String) : List (List Char) := wordsAux s.data []

/-- Number of space-separated tokens on a line. -/
def tokenCount (s : String) : Nat := (lineTokens s).length

theorem string_data_append (a b : String) : (a ++ b).data = a.data ++ b.data := by
  cases a; cases b; rfl

theorem natDigits_sound (fuel n : Nat) (hf : n < fuel) :
    natDigits fuel n ≠ [] ∧ ∀ c ∈ natDigits fuel n, ∃ d, d < 16 ∧ c = Nat.digitChar d := by
  induction fuel generalizing n with
  | zero => omega
  | succ fuel ih =>
      by_cases h : n < 10
      · refine ⟨by simp [natDigits, h], ?_⟩
        intro c hc
        simp [natDigits, h] at hc
        exact ⟨n, by omega, hc⟩
      · have hdiv : n / 10 < fuel := by
          have h1 : n / 10 < n := Nat.div_lt_self (by omega) (by omega)
          omega
        obtain ⟨hne, hmem⟩ := ih (n / 10) hdiv
        refine ⟨by simp [natDigits, h], ?_⟩
        intro c hc
        simp only [natDigits, if_neg h, List.mem_append, List.mem_singleton] at hc
        rcases hc with hc | hc
        · exact hmem c hc
        · exact ⟨n % 10, by omega, hc⟩

theorem hexDigits_sound (fuel n : Nat) (hf : n < fuel) :
    hexDigits fuel n ≠ [] ∧ ∀ c ∈ hexDigits fuel n, ∃ d, d < 16 ∧ c = Nat.digitChar d := by
  induction fuel generalizing n with
  | zero => omega
  | succ fuel ih =>
      by_cases h : n < 16
      · refine ⟨by simp [hexDigits, h], ?_⟩
        intro c hc
        simp [hexDigits, h] at hc
        exact ⟨n, h, hc⟩
      · have hdiv : n / 16 < fuel := by
          have h1 : n / 16 < n := Nat.div_lt_self (by omega) (by omega)
          omega
        obtain ⟨hne, hmem⟩ := ih (n / 16) hdiv
        refine ⟨by simp [hexDigits, h], ?_⟩
        intro c hc
        simp only [hexDigits, if_neg h, List.mem_append, List.mem_singleton] at hc
        rcases hc with hc | hc
        · exact hmem c hc
        · exact ⟨n % 16, by omega, hc⟩

theorem digitChar_ne_space (d : Nat) (hd : d < 16) : Nat.digitChar d ≠ ' ' := by
  interval_cases d <;> decide

theorem natToString_ne_nil (n : Nat) : (natToString n).data ≠ [] :=
  (natDigits_sound (n + 1) n (Nat.lt_succ_self n)).1

theorem natToString_no_space (n : Nat) : ∀ c ∈ (natToString n).data, c ≠ ' ' := by
  intro c hc
  obtain ⟨d, hd, rfl⟩ := (natDigits_sound (n + 1) n (Nat.lt_succ_self n)).2 c hc
  exact digitChar_ne_space d hd

theorem fmtAltHex_ne_nil (n : Nat) : (fmtAltHex n).data ≠ [] := by
  unfold fmtAltHex
  split
  · decide
  · simp [string_data_append]

theorem fmtAltHex_no_space (n : Nat) : ∀ c ∈ (fmtAltHex n).data, c ≠ ' ' := by
  intro c hc
  unfold fmtAltHex at hc
  split at hc
  · simp at hc; subst hc; decide
  · rw [string_data_append] at hc
    simp only [List.mem_append] at hc
    rcases hc with hc | hc
    · simp at hc
      rcases hc with rfl | rfl <;> decide
    · obtain ⟨d, hd, rfl⟩ := (hexDigits_sound (n + 1) n (Nat.lt_succ_self n)).2 c hc
      exact digitChar_ne_space d hd

/-! Tokenizer lemmas: consuming a space-free word, then splitting a
rendered token sequence back into its tokens. -/

theorem wordsAux_no_space (w : List Char) (hw : ∀ c ∈ w, c ≠ ' ') :
    ∀ rest acc, wordsAux (w ++ rest) acc = wordsAux rest (w.reverse ++ acc) := by
  induction w with
  | nil => intro rest acc; simp
  | cons c cs ih =>
      intro rest acc
      have hc : c ≠ ' ' := hw c (List.mem_cons_self c cs)
      have hcs : ∀ x ∈ cs, x ≠ ' ' := fun x hx => hw x (List.mem_cons_of_mem c hx)
      simp only [List.cons_append, wordsAux, if_neg hc, List.append_eq]
      rw [ih hcs rest (c :: acc)]
      simp

/-- The characters a sequence of `printf("<token> ", …)` calls emits:
each token followed by one space (the format string `"%#x "` ends in a
space, so the rendered line ends in a space as well). -/
def renderTokens (L : List String) : List Char :=
  L.foldr (fun t acc => t.data ++ ' ' :: acc) []

theorem wordsAux_space_flush (rest acc : List Char) (hacc : acc ≠ []) :
    wordsAux (' ' :: rest) acc = acc.reverse :: wordsAux rest [] := by
  have : acc.isEmpty = false := by
    cases acc with
    | nil => exact absurd rfl hacc
    | cons a l => rfl
  simp [wordsAux, this]

theorem wordsAux_renderTokens (L : List String)
    (hL : ∀ t ∈ L, t.data ≠ [] ∧ ∀ c ∈ t.data, c ≠ ' ') :
    wordsAux (renderTokens L) [] = L.map String.data := by
  induction L with
  | nil => rfl
  | cons t ts ih =>
      have ht := hL t (List.mem_cons_self t ts)
      have hts : ∀ u ∈ ts, u.data ≠ [] ∧ ∀ c ∈ u.data, c ≠ ' ' :=
        fun u hu => hL u (List.mem_cons_of_mem t hu)
      have step : renderTokens (t :: ts) = t.data ++ ' ' :: renderTokens ts := rfl
      rw [step, wordsAux_no_space t.data ht.2 (' ' :: renderTokens ts) []]
      rw [List.append_nil, wordsAux_space_flush _ _ (by simpa using ht.1)]
      simp [ih hts]

/-! ## The `print_longdouble` program

`src/test/targets/print_longdouble.cpp`:

```cpp
int main() {
  long double i = 42.24l;
  uint8_t* p = reinterpret_cast<uint8_t*>(&i);   // the source gives p a scarier name
  for (int i = 0; i < 16; ++i) printf("%#x ", p[i]);
  printf("\n");
  i = 64.125l;
  for (int i = 0; i < 16; ++i) printf("%#x ", p[i]);
  printf("\n");
}
```

On x86-64, `long double` is the 80-bit x87 extended format stored in 16
bytes: 8 little-endian significand bytes (explicit integer bit), 2
exponent bytes (bias 16383, sign in the top bit), and 6 padding bytes an
assignment leaves untouched.  The embedding keeps the variable's address
`a` and the initial memory abstract; assignments write the 10 encoding
bytes at `a`, and the print loops read 16 bytes through the pointer,
which holds the address `a` taken before the reassignment. -/

/-- `count` little-endian base-256 digits of `n`. -/
def leBytes (n count : Nat) : List Nat :=
  (List.range count).map fun k => n / 256 ^ k % 256

/-- 64-bit significand of the x87 encoding of the literal `42.24l`
(nearest representable to `1056 / 25`, exponent `2^5`). -/
def sig4224 : Nat := 12174851088648304067

/-- Biased exponent field of the x87 encoding of `42.24l`: `5 + 16383`. -/
def exp4224 : Nat := 16388

/-- 64-bit significand of the x87 encoding of the literal `64.125l`
(exactly `513 / 8 = 2^6 * sig / 2^63`). -/
def sig64125 : Nat := 9241386435364257792

/-- Biased exponent field of the x87 encoding of `64.125l`: `6 + 16383`. -/
def exp64125 : Nat := 16389

/-- The ten bytes an x87 `long double` store writes, little-endian: 8
significand bytes then 2 exponent bytes (both constants are positive, so
the sign bit of the top byte is clear). -/
def extLayout (sig ex : Nat) : List Nat := leBytes sig 8 ++ leBytes ex 2

/-- `42.24 = 1056/25`; the encoded significand is in range and is the
nearest integer to `1056/25 * 2^58` (distance `11/25` of a unit, below
the half-unit bound `12.5/25`), so `sig4224/2^58` is the value of the
`long double` literal `42.24l`. -/
theorem sig4224_correct :
    2 ^ 63 ≤ sig4224 ∧ sig4224 < 2 ^ 64 ∧
      25 * sig4224 - 1056 * 2 ^ 58 = 11 ∧ 1056 * 2 ^ 58 ≤ 25 * sig4224 ∧
      25 * 32 ≤ 1056 ∧ 1056 < 25 * 64 := by
  decide

/-- `64.125 = 513/8` is exactly representable: `8 * sig64125 = 513 * 2^57`. -/
theorem sig64125_correct :
    2 ^ 63 ≤ sig64125 ∧ sig64125 < 2 ^ 64 ∧
      8 * sig64125 = 513 * 2 ^ 57 ∧ 8 * 64 ≤ 513 ∧ 513 < 8 * 128 := by
  decide

/-- Write the byte list `bs` into memory `m` at addresses `a, a+1, …`. -/
def writeBytes (m : Nat → Nat) (a : Nat) (bs : List Nat) : Nat → Nat :=
  fun x => if a ≤ x ∧ x < a + bs.length then bs.getD (x - a) 0 else m x

/-- The statements of `print_longdouble.cpp`'s `main`, in order. -/
inductive PDInstr
  | storeLD (sig ex : Nat)
  | printBytes
  | printNL
deriving DecidableEq

/-- The body of `main`: store `42.24l`, print the 16 bytes, newline,
store `64.125l`, print the 16 bytes, newline. -/
def print_longdouble_prog : List PDInstr :=
  [.storeLD sig4224 exp4224, .printBytes, .printNL,
   .storeLD sig64125 exp64125, .printBytes, .printNL]

/-- Execution state of `print_longdouble`: byte memory, the completed
output lines (each a list of emitted tokens), the tokens of the
unfinished line, and the trace of addresses the print loops read. -/
structure PDState where
  mem : Nat → Nat
  lines : List (List String)
  cur : List String
  reads : List Nat

/-- One statement.  `a` is the address of the variable `i`; the byte
pointer was initialized to `a` and is never reassigned, so both print
loops read addresses `a, …, a+15`.  A `long double` assignment stores
the 10 encoding bytes; the 6 padding bytes keep their previous values. -/
def execInstr (a : Nat) (s : PDState) : PDInstr → PDState
  | .storeLD sig ex => { s with mem := writeBytes s.mem a (extLayout sig ex) }
  | .printBytes =>
      { s with
        cur := s.cur ++ (List.range 16).map fun k => fmtAltHex (s.mem (a + k) % 256),
        reads := s.reads ++ (List.range 16).map fun k => a + k }
  | .printNL => { s with lines := s.lines ++ [s.cur], cur := [] }

def execProg (a : Nat) : PDState → List PDInstr → PDState
  | s, [] => s
  | s, instr :: rest => execProg a (execInstr a s instr) rest

/-- Run `print_longdouble`'s `main` with the variable at address `a` and
initial memory `m0`. -/
def pdRun (a : Nat) (m0 : Nat → Nat) : PDState :=
  execProg a ⟨m0, [], [], []⟩ print_longdouble_prog

/-- The lines `print_longdouble` prints, as token lists. -/
def pdLines (a : Nat) (m0 : Nat → Nat) : List (List String) := (pdRun a m0).lines

/-- The six padding bytes of the `long double`'s storage, read from the
(untouched) initial memory. -/
def padBytes (a : Nat) (m0 : Nat → Nat) : List Nat :=
  (List.range 6).map fun k => m0 (a + 10 + k) % 256

/-- The addresses one pass of a print loop reads: `a, …, a + 15`. -/
def pdLoopAddrs (a : Nat) : List Nat := (List.range 16).map fun k => a + k

/-- The ten bytes currently stored in the variable `i`. -/
def iBytes (a : Nat) (m : Nat → Nat) : List Nat :=
  (List.range 10).map fun k => m (a + k) % 256

theorem extLayout_length (sig ex : Nat) : (extLayout sig ex).length = 10 := by
  simp [extLayout, leBytes]

theorem extLayout_lt (sig ex : Nat) : ∀ b ∈ extLayout sig ex, b < 256 := by
  intro b hb
  simp only [extLayout, leBytes, List.mem_append, List.mem_map] at hb
  rcases hb with ⟨k, _, rfl⟩ | ⟨k, _, rfl⟩ <;> exact Nat.mod_lt _ (by omega)

theorem writeBytes_in (m : Nat → Nat) (a : Nat) (bs : List Nat) (k : Nat)
    (hk : k < bs.length) : writeBytes m a bs (a + k) = bs.getD k 0 := by
  rw [writeBytes, if_pos ⟨Nat.le_add_right a k, by omega⟩, Nat.add_sub_cancel_left]

theorem writeBytes_pad (m : Nat → Nat) (a sig ex k : Nat) :
    writeBytes m a (extLayout sig ex) (a + 10 + k) = m (a + 10 + k) := by
  rw [writeBytes, if_neg]
  rw [extLayout_length]
  omega

/-- Reading the 16 bytes through the pointer right after a `long double`
store: the first ten tokens render the stored encoding, the last six
render whatever the padding addresses hold in `m`. -/
theorem read16 (m : Nat → Nat) (a sig ex : Nat) :
    ((List.range 16).map fun k => fmtAltHex (writeBytes m a (extLayout sig ex) (a + k) % 256))
      = (extLayout sig ex).map fmtAltHex
        ++ ((List.range 6).map fun k => fmtAltHex (m (a + 10 + k) % 256)) := by
  rw [show (16 : Nat) = 10 + 6 from rfl, List.range_add, List.map_append, List.map_map]
  congr 1
  · apply List.ext_getElem (by simp [extLayout_length])
    intro n h1 h2
    have hn : n < 10 := by simpa using h1
    have hn' : n < (extLayout sig ex).length := by rw [extLayout_length]; exact hn
    rw [List.getElem_map, List.getElem_map, List.getElem_range]
    rw [writeBytes_in m a _ n hn', List.getD_eq_getElem _ _ hn']
    have hlt : (extLayout sig ex)[n] < 256 :=
      extLayout_lt sig ex _ (List.getElem_mem hn')
    rw [Nat.mod_eq_of_lt hlt]
  · apply List.map_congr_left
    intro k _
    simp only [Function.comp]
    rw [show a + (10 + k) = a + 10 + k by omega, writeBytes_pad]

/-- Running the straight-line `main` of `print_longdouble` just threads
the six statements through the state. -/
theorem pdRun_unfold (a : Nat) (m0 : Nat → Nat) :
    pdRun a m0 =
      { mem := writeBytes (writeBytes m0 a (extLayout sig4224 exp4224)) a
          (extLayout sig64125 exp64125),
        lines :=
          [(List.range 16).map fun k =>
              fmtAltHex (writeBytes m0 a (extLayout sig4224 exp4224) (a + k) % 256),
           (List.range 16).map fun k =>
              fmtAltHex
                (writeBytes (writeBytes m0 a (extLayout sig4224 exp4224)) a
                    (extLayout sig64125 exp64125) (a + k) % 256)],
        cur := [],
        reads := ((List.range 16).map fun k => a + k) ++ (List.range 16).map fun k => a + k } := by
  simp [pdRun, print_longdouble_prog, execProg, execInstr]

/-- The two output lines of `print_longdouble`: the `%#x` rendering of
the ten encoding bytes of `42.24l`, then of `64.125l`, each followed by
the six (unmodified) padding bytes. -/
theorem pdLines_eq (a : Nat) (m0 : Nat → Nat) :
    pdLines a m0
      = [(extLayout sig4224 exp4224 ++ padBytes a m0).map fmtAltHex,
         (extLayout sig64125 exp64125 ++ padBytes a m0).map fmtAltHex] := by
  have hpad : ((List.range 6).map fun k =>
        fmtAltHex (writeBytes m0 a (extLayout sig4224 exp4224) (a + 10 + k) % 256))
      = (List.range 6).map fun k => fmtAltHex (m0 (a + 10 + k) % 256) := by
    apply List.map_congr_left
    intro k _
    rw [writeBytes_pad]
  have hpadmap : ∀ m : Nat → Nat,
      List.map fmtAltHex (padBytes a m)
        = (List.range 6).map fun k => fmtAltHex (m (a + 10 + k) % 256) := by
    intro m
    rw [padBytes, List.map_map]
    exact List.map_congr_left fun k _ => rfl
  have l1 : ((List.range 16).map fun k =>
        fmtAltHex (writeBytes m0 a (extLayout sig4224 exp4224) (a + k) % 256))
      = (extLayout sig4224 exp4224 ++ padBytes a m0).map fmtAltHex := by
    rw [read16, List.map_append, hpadmap m0]
  have l2 : ((List.range 16).map fun k =>
        fmtAltHex
          (writeBytes (writeBytes m0 a (extLayout sig4224 exp4224)) a
              (extLayout sig64125 exp64125) (a + k) % 256))
      = (extLayout sig64125 exp64125 ++ padBytes a m0).map fmtAltHex := by
    rw [read16, List.map_append, hpadmap m0, hpad]
  show (pdRun a m0).lines = _
  rw [pdRun_unfold]
  show [_, _] = [_, _]
  rw [l1, l2]

/-- Both print loops read the same sixteen addresses `a, …, a+15`: the
pointer still holds `a`, the address of `i`, in the second loop. -/
theorem pdReads_eq (a : Nat) (m0 : Nat → Nat) :
    (pdRun a m0).reads = pdLoopAddrs a ++ pdLoopAddrs a := by
  rw [pdRun_unfold]
  rfl

/-! ## The `multi_threaded2` program

`src/debugger/test_targets/multi_threaded2.cpp`:

```cpp
void* say_hi(void*) {
  while (true) {
    std::cout << "Thread " << gettid() << " reporting in\n";
    sleep(1);
  }
}

int main() {
  std::vector<pthread_t> threads(10);
  for (auto& thread: threads) pthread_create(&thread, nullptr, say_hi, nullptr);
  for (auto& thread: threads) pthread_join(thread, nullptr);
}
```

The embedding is a small-step system: each spawned thread runs the
`say_hi` control-flow graph (loop head: test the guard, print the line;
then sleep and return to the head), `main` runs its create loop followed
by its join loop (`pthread_join` blocks until the target thread has
returned), and an arbitrary schedule interleaves whole steps.  The OS
assigns thread `k` the id `tids k`; output is the list of emitted lines,
each tagged with the id of the thread that emitted it. -/

/-- Program counter of `say_hi`: about to test the guard and print, or
about to sleep, or returned from the function. -/
inductive SayHiPC
  | atLoop
  | afterPrint
  | returned
deriving DecidableEq

/-- The loop guard of `say_hi`: the literal `true` of `while (true)`. -/
def sayHiGuard : Bool := true

/-- The line `say_hi` prints each iteration (without the trailing
newline): `"Thread " << gettid() << " reporting in"`. -/
def sayHiLine (tid : Nat) : String :=
  "Thread " ++ natToString tid ++ " reporting in"

/-- One step of `say_hi` in the thread with id `tid`: at the loop head,
evaluate the guard — if it holds, print the line and proceed to the
`sleep(1)`; if not, return.  After the sleep, go back to the loop head.
Returns the new program counter and the lines emitted. -/
def sayHiStep (tid : Nat) : SayHiPC → SayHiPC × List (Nat × String)
  | .atLoop =>
      if sayHiGuard then (.afterPrint, [(tid, sayHiLine tid)]) else (.returned, [])
  | .afterPrint => (.atLoop, [])
  | .returned => (.returned, [])

/-- `say_hi` run in isolation for `n` steps: program counter and all
lines emitted so far. -/
def sayHiRun (tid : Nat) : Nat → SayHiPC × List (Nat × String)
  | 0 => (.atLoop, [])
  | n + 1 =>
      let s := sayHiRun tid n
      let t := sayHiStep tid s.1
      (t.1, s.2 ++ t.2)

/-- The start routines the program takes the address of: only `say_hi`. -/
inductive Routine
  | say_hi
deriving DecidableEq

/-- Program counter of `main`: in the create loop before element `k`, in
the join loop waiting on element `k`, or done. -/
inductive MainPC
  | create (k : Nat)
  | join (k : Nat)
  | done
deriving DecidableEq

/-- A spawned thread: its id and its position in `say_hi`. -/
structure ThreadState where
  tid : Nat
  pc : SayHiPC
deriving DecidableEq

/-- Observable thread-management events: `pthread_create` called for
vector slot `slot` (spawning `tid` with the given start routine), and a
`pthread_join` on slot `slot` completing. -/
inductive MTEvent
  | created (slot tid : Nat) (start : Routine)
  | joined (slot : Nat)
deriving DecidableEq

/-- Whole-program state: `main`'s position, the spawned threads (in
vector order), the thread-management events so far, and the lines
emitted so far (tagged with the emitting thread's id). -/
structure MTState where
  mainPC : MainPC
  threads : List ThreadState
  events : List MTEvent
  out : List (Nat × String)
deriving DecidableEq

/-- `std::vector<pthread_t> threads(10)` — the vector has ten elements. -/
def numThreads : Nat := 10

/-- One step of `main`.  In the create loop, `pthread_create` spawns the
next thread, which starts `say_hi` at its loop head.  In the join loop,
`pthread_join` completes only if the target thread has returned;
otherwise it blocks and the state is unchanged. -/
def mainStep (tids : Nat → Nat) (s : MTState) : MTState :=
  match s.mainPC with
  | .create k =>
      if k < numThreads then
        { s with
          mainPC := .create (k + 1),
          threads := s.threads ++ [⟨tids k, .atLoop⟩],
          events := s.events ++ [.created k (tids k) .say_hi] }
      else { s with mainPC := .join 0 }
  | .join k =>
      if k < numThreads then
        match s.threads[k]? with
        | some th =>
            if th.pc = .returned then
              { s with mainPC := .join (k + 1), events := s.events ++ [.joined k] }
            else s
        | none => s
      else { s with mainPC := .done }
  | .done => s

/-- One step of spawned thread `k` (no-op if no such thread exists). -/
def threadStep (s : MTState) (k : Nat) : MTState :=
  match s.threads[k]? with
  | some th =>
      let t := sayHiStep th.tid th.pc
      { s with threads := s.threads.set k ⟨th.tid, t.1⟩, out := s.out ++ t.2 }
  | none => s

/-- One system step: the schedule's choice picks a spawned thread if the
index denotes one, and `main` otherwise. -/
def sysStep (tids : Nat → Nat) (s : MTState) (choice : Nat) : MTState :=
  if choice < s.threads.length then threadStep s choice else mainStep tids s

/-- Initial state: `main` about to create the first thread. -/
def initMT : MTState := ⟨.create 0, [], [], []⟩

/-- Run `multi_threaded2` for `n` steps under schedule `sched`, with the
OS assigning thread `k` the id `tids k`. -/
def mtRun (tids sched : Nat → Nat) : Nat → MTState
  | 0 => initMT
  | n + 1 => sysStep tids (mtRun tids sched n) (sched n)

/-- The `created` events among a run's events. -/
def createdEvents (s : MTState) : List MTEvent :=
  s.events.filter fun e => match e with | .created .. => true | .joined _ => false

/-- The slots whose `pthread_join` has completed. -/
def joinedSlots (s : MTState) : List Nat :=
  s.events.filterMap fun e => match e with | .created .. => none | .joined k => some k

/-- How far `main` has advanced through its join loop. -/
def joinIndex : MainPC → Nat
  | .create _ => 0
  | .join k => k
  | .done => numThreads

/-- How many threads `main` has created so far. -/
def createIndex : MainPC → Nat
  | .create k => k
  | .join _ => numThreads
  | .done => numThreads

/-- The reachable-state invariant of `multi_threaded2`: the thread list
tracks `main`'s create loop (never beyond ten); the event log holds one
`created` event per spawned slot, with `say_hi` as every start routine,
and nothing else; `main` never gets past blocking on the join of slot 0
(and in particular never finishes); no spawned thread ever returns;
thread `k` carries id `tids k`; a thread beyond its print has already
emitted a line; and every emitted line is `"Thread <id> reporting in"`
for the id of an actually spawned thread. -/
def mtInv (tids : Nat → Nat) (s : MTState) : Prop :=
  s.threads.length = createIndex s.mainPC
  ∧ createIndex s.mainPC ≤ numThreads
  ∧ s.events = ((List.range s.threads.length).map fun k => MTEvent.created k (tids k) Routine.say_hi)
  ∧ joinIndex s.mainPC = 0
  ∧ s.mainPC ≠ .done
  ∧ (∀ k th, s.threads[k]? = some th →
      th.tid = tids k ∧ th.pc ≠ .returned
        ∧ (th.pc = .afterPrint → ∃ p ∈ s.out, p.1 = th.tid))
  ∧ ∀ p ∈ s.out, p.2 = sayHiLine p.1 ∧ ∃ k, k < numThreads ∧ p.1 = tids k

theorem mtInv_init (tids : Nat → Nat) : mtInv tids initMT := by
  refine ⟨rfl, by decide, rfl, rfl, by decide, ?_, ?_⟩
  · intro k th h
    simp [initMT] at h
  · intro p hp
    simp [initMT] at hp

theorem mtInv_step (tids : Nat → Nat) (s : MTState) (c : Nat) (h : mtInv tids s) :
    mtInv tids (sysStep tids s c) := by
  obtain ⟨hlen, hle, hev, hji, hnd, hth, hout⟩ := h
  by_cases hc : c < s.threads.length
  · rw [sysStep, if_pos hc]
    cases hget : s.threads[c]? with
    | none =>
        simp only [threadStep, hget]
        exact ⟨hlen, hle, hev, hji, hnd, hth, hout⟩
    | some th =>
        simp only [threadStep, hget]
        obtain ⟨htid, hpc, hap⟩ := hth c th hget
        have hcn : c < numThreads := by omega
        cases hthpc : th.pc with
        | returned => exact absurd hthpc hpc
        | atLoop =>
            simp only [sayHiStep, sayHiGuard, if_pos rfl]
            refine ⟨?_, hle, ?_, hji, hnd, ?_, ?_⟩
            · simpa using hlen
            · simpa using hev
            · intro k th' hget'
              by_cases hk : k = c
              · subst hk
                rw [List.getElem?_set_eq_of_lt _ hc] at hget'
                cases hget'
                refine ⟨htid, by simp, ?_⟩
                intro _
                exact ⟨(th.tid, sayHiLine th.tid), by simp⟩
              · rw [List.getElem?_set_ne (fun he => hk he.symm)] at hget'
                obtain ⟨htid', hpc', hap'⟩ := hth k th' hget'
                refine ⟨htid', hpc', ?_⟩
                intro hp
                obtain ⟨p, hpm, hpe⟩ := hap' hp
                exact ⟨p, List.mem_append_left _ hpm, hpe⟩
            · intro p hp
              rcases List.mem_append.mp hp with hp | hp
              · exact hout p hp
              · simp at hp
                subst hp
                exact ⟨rfl, c, hcn, htid⟩
        | afterPrint =>
            simp only [sayHiStep]
            refine ⟨?_, hle, ?_, hji, hnd, ?_, ?_⟩
            · simpa using hlen
            · simpa using hev
            · intro k th' hget'
              by_cases hk : k = c
              · subst hk
                rw [List.getElem?_set_eq_of_lt _ hc] at hget'
                cases hget'
                exact ⟨htid, by simp, by simp⟩
              · rw [List.getElem?_set_ne (fun he => hk he.symm)] at hget'
                obtain ⟨htid', hpc', hap'⟩ := hth k th' hget'
                refine ⟨htid', hpc', ?_⟩
                intro hp
                obtain ⟨p, hpm, hpe⟩ := hap' hp
                exact ⟨p, List.mem_append_left _ hpm, hpe⟩
            · intro p hp
              rcases List.mem_append.mp hp with hp | hp
              · exact hout p hp
              · simp at hp
  · rw [sysStep, if_neg hc]
    cases hmpc : s.mainPC with
    | done => exact absurd hmpc hnd
    | create k =>
        rw [hmpc] at hlen hle
        simp only [createIndex] at hlen hle
        by_cases hk : k < numThreads
        · simp only [mainStep, hmpc, if_pos hk]
          refine ⟨?_, ?_, ?_, ?_, ?_, ?_, ?_⟩
          · simp [createIndex, hlen]
          · simp only [createIndex]
            omega
          · show s.events ++ _ = _
            rw [hev, List.length_append, hlen]
            simp [List.range_succ]
          · rfl
          · simp
          · intro k' th' hget'
            rcases Nat.lt_trichotomy k' s.threads.length with hk' | hk' | hk'
            · rw [show ((({ s with
                    mainPC := MainPC.create (k + 1),
                    threads := s.threads ++ [⟨tids k, SayHiPC.atLoop⟩],
                    events := s.events ++ [MTEvent.created k (tids k) Routine.say_hi] } :
                  MTState)).threads) = s.threads ++ [⟨tids k, SayHiPC.atLoop⟩] from rfl,
                List.getElem?_append_left hk'] at hget'
              exact hth k' th' hget'
            · subst hk'
              rw [show ((({ s with
                    mainPC := MainPC.create (k + 1),
                    threads := s.threads ++ [⟨tids k, SayHiPC.atLoop⟩],
                    events := s.events ++ [MTEvent.created k (tids k) Routine.say_hi] } :
                  MTState)).threads) = s.threads ++ [⟨tids k, SayHiPC.atLoop⟩] from rfl,
                List.getElem?_concat_length] at hget'
              cases hget'
              exact ⟨by rw [hlen], by simp, by simp⟩
            · rw [List.getElem?_eq_none (by simp; omega)] at hget'
              cases hget'
          · exact hout
        · simp only [mainStep, hmpc, if_neg hk]
          refine ⟨?_, ?_, ?_, ?_, ?_, ?_, ?_⟩
          · simp only [createIndex]
            omega
          · simp [createIndex]
          · exact hev
          · rfl
          · simp
          · exact hth
          · exact hout
    | join k =>
        have hk0 : k = 0 := by rw [hmpc] at hji; simpa [joinIndex] using hji
        subst hk0
        cases hget : s.threads[0]? with
        | none =>
            simp only [mainStep, hmpc, if_pos (by decide : (0 : Nat) < numThreads), hget]
            exact ⟨hlen, hle, hev, hji, hnd, hth, hout⟩
        | some th =>
            obtain ⟨htid, hpc, hap⟩ := hth 0 th hget
            simp only [mainStep, hmpc, if_pos (by decide : (0 : Nat) < numThreads), hget]
            rw [if_neg hpc]
            exact ⟨hlen, hle, hev, hji, hnd, hth, hout⟩

/-- Every reachable state of `multi_threaded2` satisfies the invariant. -/
theorem mtInv_run (tids sched : Nat → Nat) (n : Nat) :
    mtInv tids (mtRun tids sched n) := by
  induction n with
  | zero => exact mtInv_init tids
  | succ n ih => exact mtInv_step tids _ (sched n) ih

/-- One system step only appends to the output. -/
theorem sysStep_out_mono (tids : Nat → Nat) (s : MTState) (c : Nat) :
    ∃ t, (sysStep tids s c).out = s.out ++ t := by
  by_cases hc : c < s.threads.length
  · rw [sysStep, if_pos hc]
    cases hget : s.threads[c]? with
    | none =>
        refine ⟨[], ?_⟩
        simp only [threadStep, hget]
        simp
    | some th =>
        refine ⟨(sayHiStep th.tid th.pc).2, ?_⟩
        simp only [threadStep, hget]
  · rw [sysStep, if_neg hc]
    refine ⟨[], ?_⟩
    rw [List.append_nil]
    cases hmpc : s.mainPC with
    | done => simp [mainStep, hmpc]
    | create k =>
        by_cases hk : k < numThreads
        · simp [mainStep, hmpc, if_pos hk]
        · simp [mainStep, hmpc, if_neg hk]
    | join k =>
        by_cases hk : k < numThreads
        · cases hget : s.threads[k]? with
          | none => simp [mainStep, hmpc, if_pos hk, hget]
          | some th =>
              by_cases hr : th.pc = .returned
              · simp [mainStep, hmpc, if_pos hk, hget, hr]
              · simp [mainStep, hmpc, if_pos hk, hget, hr]
        · simp [mainStep, hmpc, if_neg hk]

/-- Output only grows along a run. -/
theorem mtRun_out_mono (tids sched : Nat → Nat) (m n : Nat) (hmn : m ≤ n) :
    ∃ t, (mtRun tids sched n).out = (mtRun tids sched m).out ++ t := by
  induction n with
  | zero =>
      have : m = 0 := Nat.le_zero.mp hmn
      subst this
      exact ⟨[], by simp⟩
  | succ n ih =>
      rcases Nat.lt_or_ge m (n + 1) with hlt | hge
      · obtain ⟨t1, ht1⟩ := ih (Nat.lt_succ_iff.mp hlt)
        obtain ⟨t2, ht2⟩ := sysStep_out_mono tids (mtRun tids sched n) (sched n)
        exact ⟨t1 ++ t2, by rw [mtRun, ht2, ht1, List.append_assoc]⟩
      · have : m = n + 1 := by omega
        subst this
        exact ⟨[], by simp⟩

/-! ## Behaviour of `say_hi` and line shape helpers -/

theorem sayHiLine_data (t : Nat) :
    (sayHiLine t).data
      = ['T','h','r','e','a','d'] ++ ' ' :: ((natToString t).data
          ++ ' ' :: (['r','e','p','o','r','t','i','n','g'] ++ ' ' :: ['i','n'])) := by
  rw [sayHiLine, string_data_append, string_data_append]
  rw [show ("Thread " : String).data = ['T','h','r','e','a','d',' '] from rfl]
  rw [show (" reporting in" : String).data
      = [' ','r','e','p','o','r','t','i','n','g',' ','i','n'] from rfl]
  simp

theorem tokenCount_sayHiLine (t : Nat) : tokenCount (sayHiLine t) = 4 := by
  rw [tokenCount, lineTokens, sayHiLine_data]
  rw [wordsAux_no_space ['T','h','r','e','a','d'] (by decide)]
  rw [wordsAux_space_flush _ _ (by simp)]
  rw [wordsAux_no_space (natToString t).data (natToString_no_space t)]
  rw [wordsAux_space_flush _ _ (by simp [natToString_ne_nil t])]
  rw [wordsAux_no_space ['r','e','p','o','r','t','i','n','g'] (by decide)]
  rw [wordsAux_space_flush _ _ (by simp)]
  simp [wordsAux]
theorem sayHiRun_spec (t n : Nat) :
    (sayHiRun t n).1 = (if n % 2 = 0 then SayHiPC.atLoop else SayHiPC.afterPrint)
      ∧ (sayHiRun t n).2.length = (n + 1) / 2 := by
  induction n with
  | zero => exact ⟨rfl, rfl⟩
  | succ n ih =>
      obtain ⟨h1, h2⟩ := ih
      by_cases hp : n % 2 = 0
      · rw [if_pos hp] at h1
        constructor
        · rw [show (sayHiRun t (n+1)).1 = (sayHiStep t (sayHiRun t n).1).1 from rfl, h1]
          show SayHiPC.afterPrint = _
          rw [if_neg (by omega)]
        · rw [show (sayHiRun t (n+1)).2
              = (sayHiRun t n).2 ++ (sayHiStep t (sayHiRun t n).1).2 from rfl, h1,
            List.length_append]
          show (sayHiRun t n).2.length + 1 = _
          rw [h2]
          omega
      · rw [if_neg hp] at h1
        constructor
        · rw [show (sayHiRun t (n+1)).1 = (sayHiStep t (sayHiRun t n).1).1 from rfl, h1]
          show SayHiPC.atLoop = _
          rw [if_pos (by omega)]
        · rw [show (sayHiRun t (n+1)).2
              = (sayHiRun t n).2 ++ (sayHiStep t (sayHiRun t n).1).2 from rfl, h1,
            List.length_append]
          show (sayHiRun t n).2.length + 0 = _
          rw [h2]
          omega

/-- Every `%#x` token is nonempty and space-free. -/
theorem fmt_tokens_ok (bs : List Nat) :
    ∀ t ∈ bs.map fmtAltHex, t.data ≠ [] ∧ ∀ c ∈ t.data, c ≠ ' ' := by
  intro t ht
  obtain ⟨b, _, rfl⟩ := List.mem_map.mp ht
  exact ⟨fmtAltHex_ne_nil b, fmtAltHex_no_space b⟩

/-- All sixteen byte values a print loop renders are below 256. -/
theorem line_bytes_lt (sig ex a : Nat) (m0 : Nat → Nat) :
    ∀ b ∈ extLayout sig ex ++ padBytes a m0, b < 256 := by
  intro b hb
  rcases List.mem_append.mp hb with hb | hb
  · exact extLayout_lt sig ex b hb
  · obtain ⟨k, _, rfl⟩ := List.mem_map.mp hb
    exact Nat.mod_lt _ (by omega)

/-! ## The claims -/

/-- C1: `print_longdouble` prints exactly two lines; each line consists
of exactly 16 tokens, each token the `%#x` rendering of a byte value
(below 256) of the in-memory layout read through the byte pointer, and
the characters actually printed (token + space, sixteen times) tokenize
back into exactly those 16 space-separated tokens. -/
theorem C1_two_lines_of_16_hex_byte_tokens (a : Nat) (m0 : Nat → Nat) :
    (pdLines a m0).length = 2
      ∧ ∀ L ∈ pdLines a m0,
          L.length = 16
            ∧ (∀ t ∈ L, ∃ b, b < 256 ∧ t = fmtAltHex b)
            ∧ wordsAux (renderTokens L) [] = L.map String.data := by
  rw [pdLines_eq]
  refine ⟨rfl, ?_⟩
  intro L hL
  have key : ∀ sig ex : Nat, L = (extLayout sig ex ++ padBytes a m0).map fmtAltHex →
      L.length = 16
        ∧ (∀ t ∈ L, ∃ b, b < 256 ∧ t = fmtAltHex b)
        ∧ wordsAux (renderTokens L) [] = L.map String.data := by
    intro sig ex hLe
    subst hLe
    refine ⟨?_, ?_, ?_⟩
    · simp [extLayout_length, padBytes]
    · intro t ht
      obtain ⟨b, hb, rfl⟩ := List.mem_map.mp ht
      exact ⟨b, line_bytes_lt sig ex a m0 b hb, rfl⟩
    · exact wordsAux_renderTokens _ (fmt_tokens_ok _)
  simp only [List.mem_cons, List.not_mem_nil, or_false] at hL
  rcases hL with rfl | rfl
  · exact key sig4224 exp4224 rfl
  · exact key sig64125 exp64125 rfl

/-- C1 witness at the concrete address 0 and all-zero initial memory. -/
theorem C1_witness :
    (pdLines 0 (fun _ => 0)).length = 2
      ∧ ((pdLines 0 (fun _ => 0)).getD 0 []).length = 16 := by
  have h := C1_two_lines_of_16_hex_byte_tokens 0 (fun _ => 0)
  refine ⟨h.1, ?_⟩
  have hmem : (pdLines 0 (fun _ => 0)).getD 0 [] ∈ pdLines 0 (fun _ => 0) := by
    rw [List.getD_eq_getElem _ _ (by omega)]
    exact List.getElem_mem _
  exact (h.2 _ hmem).1

/-- C9: both print loops read the same sixteen addresses through the
same pointer (the address of `i`, unchanged by the reassignment), so the
first line renders the byte layout of `42.24l` and the second the byte
layout of `64.125l`, each followed by the same six padding bytes. -/
theorem C9_same_pointer_both_layouts (a : Nat) (m0 : Nat → Nat) :
    (pdRun a m0).reads = pdLoopAddrs a ++ pdLoopAddrs a
      ∧ pdLines a m0
          = [(extLayout sig4224 exp4224 ++ padBytes a m0).map fmtAltHex,
             (extLayout sig64125 exp64125 ++ padBytes a m0).map fmtAltHex] :=
  ⟨pdReads_eq a m0, pdLines_eq a m0⟩

/-- C10: `%#x` renders the byte 0 as the bare token `"0"` and every
nonzero byte as `0x` followed by its hex digits; the second output line
(the layout of `64.125l`, whose low significand bytes are zero) really
contains the token `"0"`, which is not of the prefixed form — so not
every token is a prefixed hexadecimal literal. -/
theorem C10_zero_byte_token_form (a : Nat) (m0 : Nat → Nat) :
    fmtAltHex 0 = "0"
      ∧ (∀ b, b ≠ 0 → ∃ ds, ds ≠ [] ∧ fmtAltHex b = "0x" ++ String.mk ds)
      ∧ "0" ∈ (pdLines a m0).getD 1 []
      ∧ ¬∃ s : String, ("0" : String) = "0x" ++ s := by
  refine ⟨rfl, ?_, ?_, ?_⟩
  · intro b hb
    exact ⟨hexDigits (b + 1) b, (hexDigits_sound (b + 1) b (Nat.lt_succ_self b)).1,
      by rw [fmtAltHex, if_neg hb]⟩
  · rw [pdLines_eq]
    show "0" ∈ (extLayout sig64125 exp64125 ++ padBytes a m0).map fmtAltHex
    rw [List.map_append]
    apply List.mem_append_left
    have h0 : (0 : Nat) ∈ extLayout sig64125 exp64125 := by decide
    exact List.mem_map.mpr ⟨0, h0, rfl⟩
  · rintro ⟨s, hs⟩
    have hd := congrArg String.data hs
    rw [string_data_append] at hd
    simp at hd

/-- C10 witness: the nonzero byte 65 gets a `0x` prefix, and the second
line of the concrete run contains the bare token `"0"`. -/
theorem C10_witness :
    (∃ ds, ds ≠ [] ∧ fmtAltHex 65 = "0x" ++ String.mk ds)
      ∧ "0" ∈ (pdLines 0 (fun _ => 0)).getD 1 [] :=
  ⟨(C10_zero_byte_token_form 0 (fun _ => 0)).2.1 65 (by decide),
   (C10_zero_byte_token_form 0 (fun _ => 0)).2.2.1⟩

/-- `isStoreLD` recognizes the two assignment statements of
`print_longdouble`'s `main`. -/
def isStoreLD : PDInstr → Bool
  | .storeLD .. => true
  | .printBytes => false
  | .printNL => false

/-- C6 counterexample: after the initializing assignment, an operation
of the program (the reassignment `i = 64.125l`) does change the
variable's value — its ten encoding bytes after the full run differ from
the bytes right after initialization (address 0, zeroed memory). -/
theorem C6_counterexample :
    iBytes 0 (pdRun 0 (fun _ => 0)).mem
      ≠ iBytes 0 (execInstr 0 ⟨(fun _ => 0), [], [], []⟩ (PDInstr.storeLD sig4224 exp4224)).mem := by
  decide

/-- C6 amended: the variable is written exactly twice — the
initialization to `42.24l` and the reassignment to `64.125l`; no other
statement modifies memory, and from the second assignment to the end of
the program its value stays the byte layout of `64.125l`. -/
theorem C6_amended_two_writes_only (a : Nat) (m0 : Nat → Nat) :
    print_longdouble_prog.filter isStoreLD
        = [PDInstr.storeLD sig4224 exp4224, PDInstr.storeLD sig64125 exp64125]
      ∧ (∀ (s : PDState) (instr : PDInstr),
          isStoreLD instr = false → (execInstr a s instr).mem = s.mem)
      ∧ iBytes a (pdRun a m0).mem = extLayout sig64125 exp64125 := by
  refine ⟨rfl, ?_, ?_⟩
  · intro s instr h
    cases instr with
    | storeLD sig ex => simp [isStoreLD] at h
    | printBytes => rfl
    | printNL => rfl
  · have hmem : (pdRun a m0).mem
        = writeBytes (writeBytes m0 a (extLayout sig4224 exp4224)) a
            (extLayout sig64125 exp64125) := by
      rw [pdRun_unfold]
    rw [hmem, iBytes]
    apply List.ext_getElem (by simp [extLayout_length])
    intro n h1 h2
    have hn : n < 10 := by simpa using h1
    have hn' : n < (extLayout sig64125 exp64125).length := by
      rw [extLayout_length]; exact hn
    rw [List.getElem_map, List.getElem_range]
    rw [writeBytes_in _ _ _ n hn', List.getD_eq_getElem _ _ hn']
    exact Nat.mod_eq_of_lt (extLayout_lt _ _ _ (List.getElem_mem hn'))

/-- C6 amended witness: the first print loop leaves memory unchanged. -/
theorem C6_amended_witness :
    (execInstr 0 ⟨(fun _ => 0), [], [], []⟩ PDInstr.printBytes).mem
      = (⟨(fun _ => 0), [], [], []⟩ : PDState).mem :=
  (C6_amended_two_writes_only 0 (fun _ => 0)).2.1 _ PDInstr.printBytes rfl

/-- Concrete witness parameters: the OS gives thread `k` the id
`1000 + k`; the schedule runs `main` for ten steps (completing the
create loop) and thread 0 from then on. -/
def tidsW : Nat → Nat := fun k => 1000 + k

def schedW : Nat → Nat := fun m => if m < 10 then 10 else 0

/-- Under the `main`-only schedule, `main` has performed exactly `j`
creations after `j` steps. -/
theorem mtRun_mainSched_creates (tids : Nat → Nat) (j : Nat) (hj : j ≤ numThreads) :
    (mtRun tids (fun _ => numThreads) j).mainPC = MainPC.create j
      ∧ (mtRun tids (fun _ => numThreads) j).threads.length = j := by
  induction j with
  | zero => exact ⟨rfl, rfl⟩
  | succ j ih =>
      obtain ⟨h1, h2⟩ := ih (by omega)
      have hstep : mtRun tids (fun _ => numThreads) (j + 1)
          = sysStep tids (mtRun tids (fun _ => numThreads) j) numThreads := rfl
      rw [hstep, sysStep, if_neg (by omega)]
      simp only [mainStep, h1]
      rw [if_pos (by omega : j < numThreads)]
      exact ⟨rfl, by simp [h2]⟩

/-- C2: the thread vector has ten elements; in every execution the
created events are exactly one `pthread_create` per already-filled
vector slot, each with `say_hi` as the start routine, never more than
ten — and a run that lets `main` finish its create loop has spawned
exactly ten threads. -/
theorem C2_main_spawns_ten_say_hi_threads (tids sched : Nat → Nat) (n : Nat) :
    numThreads = 10
      ∧ (mtRun tids sched n).threads.length ≤ numThreads
      ∧ createdEvents (mtRun tids sched n)
          = ((List.range (mtRun tids sched n).threads.length).map fun k =>
              MTEvent.created k (tids k) Routine.say_hi)
      ∧ (mtRun tids (fun _ => numThreads) numThreads).threads.length = numThreads := by
  obtain ⟨hlen, hle, hev, _, _, _, _⟩ := mtInv_run tids sched n
  refine ⟨rfl, by omega, ?_, (mtRun_mainSched_creates tids numThreads (by omega)).2⟩
  rw [createdEvents, hev, List.filter_map]
  congr 1
  exact List.filter_eq_self.mpr fun a _ => rfl

/-- C3: `say_hi` never returns: after any number of steps its control is
still inside the loop, and every pair of steps (print, sleep) emits one
more line — the loop body runs again after every iteration. -/
theorem C3_say_hi_never_returns (t n : Nat) :
    (sayHiRun t n).1 ≠ SayHiPC.returned ∧ (sayHiRun t (2 * n)).2.length = n := by
  constructor
  · rw [(sayHiRun_spec t n).1]
    split <;> simp
  · rw [(sayHiRun_spec t (2 * n)).2]
    omega

/-- The property claim C4 asserts of an execution: every one of the ten
created handles eventually has its `pthread_join` complete. -/
def everyHandleEventuallyJoined (tids sched : Nat → Nat) : Prop :=
  ∀ k, k < numThreads → ∃ n, k ∈ joinedSlots (mtRun tids sched n)

/-- C4 counterexample: under a concrete round-robin schedule (with the
identity id assignment) no handle is ever joined — `say_hi` never
returns, so `pthread_join` on slot 0 blocks forever. -/
theorem C4_counterexample :
    ¬ everyHandleEventuallyJoined (fun k => k) (fun m => m % 11) := by
  intro h
  obtain ⟨n, hn⟩ := h 0 (by decide)
  obtain ⟨_, _, hev, _, _, _, _⟩ := mtInv_run (fun k => k) (fun m => m % 11) n
  rw [joinedSlots, hev, List.filterMap_map] at hn
  simp [Function.comp] at hn

/-- C4 amended: `main`'s join loop would join each handle in order —
one completed join appends a `joined` event and advances to the next
slot — but in every execution no `pthread_join` ever completes: the
completed-join list stays empty, `main` never advances past waiting on
slot 0, and the program never terminates. -/
theorem C4_amended_joins_never_complete (tids sched : Nat → Nat) (n : Nat) :
    joinedSlots (mtRun tids sched n) = []
      ∧ joinIndex (mtRun tids sched n).mainPC = 0
      ∧ (mtRun tids sched n).mainPC ≠ MainPC.done
      ∧ ∀ (s : MTState) (k : Nat) (th : ThreadState),
          s.mainPC = MainPC.join k → k < numThreads → s.threads[k]? = some th →
            th.pc = SayHiPC.returned →
            (mainStep tids s).events = s.events ++ [MTEvent.joined k] := by
  obtain ⟨_, _, hev, hji, hnd, _, _⟩ := mtInv_run tids sched n
  refine ⟨?_, hji, hnd, ?_⟩
  · rw [joinedSlots, hev, List.filterMap_map]
    simp [Function.comp]
  · intro s k th hmpc hk hget hr
    simp only [mainStep, hmpc, if_pos hk, hget, if_pos hr]

/-- C4 amended witness: a concrete run has an empty completed-join list,
and a join does complete on a (hypothetical) returned thread. -/
theorem C4_amended_witness :
    joinedSlots (mtRun tidsW schedW 20) = []
      ∧ (mainStep tidsW ⟨MainPC.join 0, [⟨77, SayHiPC.returned⟩], [], []⟩).events
          = ([] : List MTEvent) ++ [MTEvent.joined 0] :=
  ⟨(C4_amended_joins_never_complete tidsW schedW 20).1,
   (C4_amended_joins_never_complete tidsW schedW 20).2.2.2
      ⟨MainPC.join 0, [⟨77, SayHiPC.returned⟩], [], []⟩ 0 ⟨77, SayHiPC.returned⟩
      rfl (by decide) rfl rfl⟩

/-- C5: every line `multi_threaded2` emits is
`"Thread <id> reporting in"` where `<id>` is the id of the thread that
emitted it (the emitter tag of the output pair), and that id belongs to
one of the ten spawned threads. -/
theorem C5_output_lines_form (tids sched : Nat → Nat) (n : Nat) :
    ∀ p ∈ (mtRun tids sched n).out,
      p.2 = "Thread " ++ natToString p.1 ++ " reporting in"
        ∧ ∃ k, k < numThreads ∧ p.1 = tids k := by
  obtain ⟨_, _, _, _, _, _, hout⟩ := mtInv_run tids sched n
  intro p hp
  obtain ⟨h1, k, hk, h2⟩ := hout p hp
  exact ⟨h1, k, hk, h2⟩

/-- C5 witness: the line of the concrete run. -/
theorem C5_witness :
    ((1000 : Nat), ("Thread 1000 reporting in" : String)).2
        = "Thread "
            ++ natToString ((1000 : Nat), ("Thread 1000 reporting in" : String)).1
            ++ " reporting in"
      ∧ ∃ k, k < numThreads
          ∧ ((1000 : Nat), ("Thread 1000 reporting in" : String)).1 = tidsW k :=
  C5_output_lines_form tidsW schedW 11 (1000, "Thread 1000 reporting in") (by decide)

/-- C7: output shape is invocation-independent: any two runs of
`print_longdouble` (any address, any initial memory — hence any padding
garbage) print the same number of lines with the same token count per
line, and every line any run of `multi_threaded2` emits has the same
token count (four), so any two lines of any two runs agree. -/
theorem C7_output_shape_invariant (a1 a2 : Nat) (m1 m2 : Nat → Nat)
    (tids1 sched1 tids2 sched2 : Nat → Nat) (n1 n2 : Nat) :
    (pdLines a1 m1).length = (pdLines a2 m2).length
      ∧ (pdLines a1 m1).map List.length = (pdLines a2 m2).map List.length
      ∧ (∀ p ∈ (mtRun tids1 sched1 n1).out, tokenCount p.2 = 4)
      ∧ ∀ p q, p ∈ (mtRun tids1 sched1 n1).out → q ∈ (mtRun tids2 sched2 n2).out →
          tokenCount p.2 = tokenCount q.2 := by
  have hshape : ∀ (a : Nat) (m : Nat → Nat), (pdLines a m).map List.length = [16, 16] := by
    intro a m
    rw [pdLines_eq]
    simp [extLayout_length, padBytes]
  have hmt : ∀ (tids sched : Nat → Nat) (n : Nat),
      ∀ p ∈ (mtRun tids sched n).out, tokenCount p.2 = 4 := by
    intro tids sched n p hp
    obtain ⟨_, _, _, _, _, _, hout⟩ := mtInv_run tids sched n
    rw [(hout p hp).1]
    exact tokenCount_sayHiLine p.1
  refine ⟨?_, by rw [hshape, hshape], hmt tids1 sched1 n1, ?_⟩
  · rw [pdLines_eq, pdLines_eq]
    rfl
  · intro p q hp hq
    rw [hmt tids1 sched1 n1 p hp, hmt tids2 sched2 n2 q hq]

/-- C7 witness: the concrete emitted line has four tokens. -/
theorem C7_witness : tokenCount "Thread 1000 reporting in" = 4 :=
  (C7_output_shape_invariant 0 0 (fun _ => 0) (fun _ => 0)
      tidsW schedW tidsW schedW 11 11).2.2.1
    (1000, "Thread 1000 reporting in") (by decide)

/-- C8: any spawned thread that gets scheduled at least once before the
run is cut off has emitted at least one reporting line by then — the
print comes first in the loop body, so one step suffices. -/
theorem C8_each_scheduled_thread_reports (tids sched : Nat → Nat) (n k m : Nat)
    (_hk : k < numThreads) (hm : m < n) (hsched : sched m = k)
    (hcreated : k < (mtRun tids sched m).threads.length) :
    ∃ p ∈ (mtRun tids sched n).out, p.1 = tids k := by
  have step1 : ∃ p ∈ (mtRun tids sched (m + 1)).out, p.1 = tids k := by
    obtain ⟨hlen, hle, hev, hji, hnd, hth, hout⟩ := mtInv_run tids sched m
    have hrun : mtRun tids sched (m + 1)
        = sysStep tids (mtRun tids sched m) (sched m) := rfl
    rw [hrun, hsched, sysStep, if_pos hcreated]
    cases hget : (mtRun tids sched m).threads[k]? with
    | none =>
        have h2 := List.getElem?_eq_getElem hcreated
        rw [hget] at h2
        simp at h2
    | some th =>
        obtain ⟨htid, hpc, hap⟩ := hth k th hget
        simp only [threadStep, hget]
        cases hthpc : th.pc with
        | returned => exact absurd hthpc hpc
        | atLoop =>
            refine ⟨(th.tid, sayHiLine th.tid), ?_, htid⟩
            simp [sayHiStep, sayHiGuard]
        | afterPrint =>
            obtain ⟨p, hpm, hpe⟩ := hap hthpc
            refine ⟨p, ?_, by rw [hpe, htid]⟩
            simp [sayHiStep]
            exact hpm
  obtain ⟨p, hp, hpe⟩ := step1
  obtain ⟨t, ht⟩ := mtRun_out_mono tids sched (m + 1) n (by omega)
  exact ⟨p, by rw [ht]; exact List.mem_append_left _ hp, hpe⟩

/-- C8 witness: after ten `main` steps and one step of thread 0, the
output contains a line from thread 0's id. -/
theorem C8_witness : ∃ p ∈ (mtRun tidsW schedW 11).out, p.1 = tidsW 0 :=
  C8_each_scheduled_thread_reports tidsW schedW 11 0 10 (by decide) (by omega) rfl
    (by decide)

end Bad
